import Mathlib

/-!
Verification of `skexplain/report/trust.py`.

The file embeds, as executable Lean definitions, the parts of `trust.py`
that the stated properties concern:

* `BlackboxVerdict` — the tri-state trust verdict enum with display colors;
* `walk_tree` / `get_dt_info` — the recursive decision-tree analyzer that
  collects feature usage, per-split statistics, leaf branches and a sample
  total from a fitted tree's node arrays;
* the iterative feature-ablation loop of `trust_report`, which repeatedly
  zeroes the most-used feature's column in the training/test matrices,
  refits a surrogate via `fit_and_explain`, and records macro-F1
  performance and fidelity scores.

Decision trees are kept in the scikit-learn array-of-nodes representation
(parallel arrays indexed by node id).  Machine floats of the original are
modelled as rationals; integer sample counts as naturals.  The blackbox
model, the Dagger extraction and scikit-learn's fitting routines are
external libraries, so the surrogate-producing step `fit_and_explain` is
abstracted as an opaque function argument, and scikit-learn's
`f1_score(..., average="macro")` is reimplemented here from its documented
definition.
-/

namespace Trust
/-- Verdict enum from `trust.py`: `TRUSTWORTHY = 1, "green"`,
`INCONCLUSIVE = 2, "yellow"`, `UNTRUSTWORTHY = 3, "red"`. -/
inductive BlackboxVerdict where
  | TRUSTWORTHY
  | INCONCLUSIVE
  | UNTRUSTWORTHY
deriving DecidableEq

/-- Numeric `_value_` of each verdict (first component of the enum tuple). -/
def BlackboxVerdict.value : BlackboxVerdict → Nat
  | .TRUSTWORTHY => 1
  | .INCONCLUSIVE => 2
  | .UNTRUSTWORTHY => 3

/-- Display color of each verdict, as returned by the `color` property
(lookup of the `_color_` attribute stored by `__init__`). -/
def BlackboxVerdict.color : BlackboxVerdict → String
  | .TRUSTWORTHY => "green"
  | .INCONCLUSIVE => "yellow"
  | .UNTRUSTWORTHY => "red"

/-- Decision tree in the scikit-learn node-array representation used by
`get_dt_info` (`dt.tree_.children_left`, `children_right`, `feature`,
`threshold`, `value`, `n_node_samples`, `impurity`).  A node is a leaf iff
its left and right child indices are equal (scikit-learn stores -1 for
both; only the equality test is ever used, so children are naturals and a
leaf carries equal junk child indices).  `value` holds, per node, the
class-count vector `values[node][0]`. -/
structure DTree where
  children_left : List Nat
  children_right : List Nat
  feature : List Nat
  threshold : List ℚ
  value : List (List Nat)
  n_node_samples : List Nat
  impurity : List ℚ
deriving DecidableEq

/-- Number of nodes of the tree (length of the node arrays). -/
def DTree.nodeCount (t : DTree) : Nat := t.children_left.length

/-- Left child index of a node (`children_left[node]`). -/
def DTree.leftOf (t : DTree) (n : Nat) : Nat := t.children_left.getD n 0

/-- Right child index of a node (`children_right[node]`). -/
def DTree.rightOf (t : DTree) (n : Nat) : Nat := t.children_right.getD n 0

/-- Split feature of a node (`features[node]`). -/
def DTree.featOf (t : DTree) (n : Nat) : Nat := t.feature.getD n 0

/-- Split threshold of a node (`thresholds[node]`). -/
def DTree.threshOf (t : DTree) (n : Nat) : ℚ := t.threshold.getD n 0

/-- Class-count vector of a node (`values[node][0]`). -/
def DTree.valOf (t : DTree) (n : Nat) : List Nat := t.value.getD n []

/-- Total sample count of a node (`samples[node]`, i.e. `n_node_samples`). -/
def DTree.sampOf (t : DTree) (n : Nat) : Nat := t.n_node_samples.getD n 0

/-- Impurity of a node (`impurity[node]`). -/
def DTree.impOf (t : DTree) (n : Nat) : ℚ := t.impurity.getD n 0

/-- Well-formed tree: node arrays have equal length, the tree is nonempty,
every internal node's children are in range and have strictly larger
indices (true of scikit-learn's array layout, and what makes the recursion
well-founded), the sample count of an internal node is the sum of its
children's (the data-model invariant), and every node's sample count is
the sum of its class-count vector. -/
def WF (t : DTree) : Prop :=
  0 < t.nodeCount ∧
  t.children_right.length = t.nodeCount ∧
  t.feature.length = t.nodeCount ∧
  t.threshold.length = t.nodeCount ∧
  t.value.length = t.nodeCount ∧
  t.n_node_samples.length = t.nodeCount ∧
  t.impurity.length = t.nodeCount ∧
  (∀ n, n < t.nodeCount → t.leftOf n ≠ t.rightOf n →
    n < t.leftOf n ∧ n < t.rightOf n ∧
    t.leftOf n < t.nodeCount ∧ t.rightOf n < t.nodeCount ∧
    t.sampOf n = t.sampOf (t.leftOf n) + t.sampOf (t.rightOf n)) ∧
  (∀ n, n < t.nodeCount → (t.valOf n).sum = t.sampOf n)

instance (t : DTree) : Decidable (WF t) := by
  unfold WF
  infer_instance

/-- First index of a maximal element, as computed by `np.argmax` on the
class-count vector of a leaf. -/
def np_argmax (xs : List Nat) : Nat :=
  (List.range xs.length).foldl
    (fun best i => if xs.getD i 0 > xs.getD best 0 then i else best) 0

/-- Predicate on a root-to-leaf path: `(feature, op, threshold)` where the
operator is the literal string `"<="` or `">"` of the original code. -/
abbrev Pred := Nat × String × ℚ

/-- Branch record produced by `walk_tree` at a leaf. -/
structure Branch where
  path : List Pred
  cls : Nat
  prob : ℚ
  samples : Nat
deriving DecidableEq

/-- Split record appended to `splits` at an internal node. -/
structure SplitRec where
  idx : Nat
  feature : Nat
  threshold : ℚ
  samples : Nat
  values : List Nat
  gini_split : ℚ × ℚ
  data_split : Nat × Nat
  data_split_by_class : List (Nat × Nat)
deriving DecidableEq

/-- Entry of the `features_used` dictionary: split count and cumulative
sample count for one feature. -/
structure FeatUse where
  count : Nat
  samples : Nat
deriving DecidableEq

/-- Mutable state of the `walk_tree` closure: the `features_used` dict
(modelled as an insertion-ordered association list, like a Python dict)
and the `splits` list. -/
structure WalkState where
  features_used : List (Nat × FeatUse)
  splits : List SplitRec
deriving DecidableEq

/-- Lookup in the insertion-ordered association list modelling the
`features_used` dict. -/
def lookupUse : List (Nat × FeatUse) → Nat → Option FeatUse
  | [], _ => none
  | (g, u) :: rest, f => if g = f then some u else lookupUse rest f

/-- Update of the `features_used` dict at an internal node: create the
entry if absent, then `count += 1` and `samples += s`.  A new key is
appended at the end, as in a Python dict. -/
def updateUsage : List (Nat × FeatUse) → Nat → Nat → List (Nat × FeatUse)
  | [], f, s => [(f, ⟨1, s⟩)]
  | (g, u) :: rest, f, s =>
    if g = f then (g, ⟨u.count + 1, u.samples + s⟩) :: rest
    else (g, u) :: updateUsage rest f s

/-- Split record for an internal node, exactly the dict appended to
`splits` by `walk_tree`. -/
def splitOf (t : DTree) (node : Nat) : SplitRec :=
  { idx := node
    feature := t.featOf node
    threshold := t.threshOf node
    samples := t.sampOf node
    values := t.valOf node
    gini_split := (t.impOf (t.leftOf node), t.impOf (t.rightOf node))
    data_split := ((t.valOf (t.leftOf node)).sum, (t.valOf (t.rightOf node)).sum)
    data_split_by_class := (t.valOf (t.leftOf node)).zip (t.valOf (t.rightOf node)) }

/-- Branch record for a leaf: predicted class `np.argmax(values[node][0])`,
probability `values[node][0][cls] / sum(values[node][0]) * 100`, and the
leaf's sample count. -/
def branchOf (t : DTree) (node : Nat) (path : List Pred) : Branch :=
  { path := path
    cls := np_argmax (t.valOf node)
    prob := (((t.valOf node).getD (np_argmax (t.valOf node)) 0 : ℚ) /
      ((t.valOf node).sum : ℚ)) * 100
    samples := t.sampOf node }

/-- Recursive tree walk of `get_dt_info`.  At a leaf it returns the single
branch record; at an internal node it updates `features_used`, appends a
split record, then recurses into the left child and then the right child,
concatenating the branch lists.  The extra fuel argument makes the
recursion over node indices structural; running it with fuel
`t.nodeCount` from the root never exhausts it on a well-formed tree,
since child indices strictly increase. -/
def walk_tree (t : DTree) : Nat → Nat → List Pred → WalkState → List Branch × WalkState
  | 0, _, _, s => ([], s)
  | fuel + 1, node, path, s =>
    if t.leftOf node = t.rightOf node then
      ([branchOf t node path], s)
    else
      let s1 : WalkState :=
        { features_used := updateUsage s.features_used (t.featOf node) (t.sampOf node)
          splits := s.splits ++ [splitOf t node] }
      let pl := walk_tree t fuel (t.leftOf node) (path ++ [(t.featOf node, "<=", t.threshOf node)]) s1
      let pr := walk_tree t fuel (t.rightOf node) (path ++ [(t.featOf node, ">", t.threshOf node)]) pl.2
      (pl.1 ++ pr.1, pr.2)

/-- Result tuple of `get_dt_info`: `(features_used, splits, branches,
samples_sum)`. -/
structure DtInfo where
  features_used : List (Nat × FeatUse)
  splits : List SplitRec
  branches : List Branch
  samples_sum : Nat
deriving DecidableEq

/-- Embedding of `get_dt_info`: walk the tree from the root with an empty
path, and return the collected feature usage, splits, branches, and
`samples_sum = np.sum(samples)` — the sum of `n_node_samples` over all
nodes of the tree. -/
def get_dt_info (t : DTree) : DtInfo :=
  let r := walk_tree t t.nodeCount 0 [] ⟨[], []⟩
  { features_used := r.2.features_used
    splits := r.2.splits
    branches := r.1
    samples_sum := t.n_node_samples.sum }

/-- Pre-order list of the internal nodes of the tree below `node` (node
first, then the left subtree, then the right subtree), written directly
from the traversal order stated by the specification. -/
def preorderInternals (t : DTree) : Nat → Nat → List Nat
  | 0, _ => []
  | fuel + 1, node =>
    if t.leftOf node = t.rightOf node then []
    else node :: (preorderInternals t fuel (t.leftOf node) ++
      preorderInternals t fuel (t.rightOf node))

/-- Leaves below `node` paired with their root-to-leaf predicate paths, in
left-to-right order, with a left edge contributing `(feature, "<=",
threshold)` and a right edge `(feature, ">", threshold)`. -/
def leafPaths (t : DTree) : Nat → Nat → List Pred → List (Nat × List Pred)
  | 0, _, _ => []
  | fuel + 1, node, path =>
    if t.leftOf node = t.rightOf node then [(node, path)]
    else
      leafPaths t fuel (t.leftOf node) (path ++ [(t.featOf node, "<=", t.threshOf node)]) ++
      leafPaths t fuel (t.rightOf node) (path ++ [(t.featOf node, ">", t.threshOf node)])

/-- Internal nodes below `node` (in pre-order) that split on feature `f`. -/
def splitsOn (t : DTree) (fuel node f : Nat) : List Nat :=
  (preorderInternals t fuel node).filter (fun n => t.featOf n == f)

/-- Effect on one `features_used` entry of one dict update. -/
def bumpUse (o : Option FeatUse) (s : Nat) : Option FeatUse :=
  match o with
  | none => some ⟨1, s⟩
  | some u => some ⟨u.count + 1, u.samples + s⟩

/-- Effect on one `features_used` entry of `c` dict updates contributing
`s` samples in total; no update leaves the entry unchanged. -/
def addUse (o : Option FeatUse) (c s : Nat) : Option FeatUse :=
  if c = 0 then o
  else
    match o with
    | none => some ⟨c, s⟩
    | some u => some ⟨u.count + c, u.samples + s⟩

/-- State after the `features_used` update and the `splits.append` done at
an internal node, before recursing into the children. -/
def stepState (t : DTree) (node : Nat) (s : WalkState) : WalkState :=
  { features_used := updateUsage s.features_used (t.featOf node) (t.sampOf node)
    splits := s.splits ++ [splitOf t node] }

/-- Root-to-leaf descent relation over the node arrays: `ReachLeaf t node
path leaf` holds when the tree descends from `node` to the leaf `leaf`,
with each left edge contributing `(feature, "<=", threshold)` and each
right edge `(feature, ">", threshold)` to `path`. -/
inductive ReachLeaf (t : DTree) : Nat → List Pred → Nat → Prop where
  | here (node : Nat) (h : t.leftOf node = t.rightOf node) : ReachLeaf t node [] node
  | stepL (node : Nat) {path : List Pred} {leaf : Nat}
      (h : ¬ t.leftOf node = t.rightOf node)
      (tail : ReachLeaf t (t.leftOf node) path leaf) :
      ReachLeaf t node ((t.featOf node, "<=", t.threshOf node) :: path) leaf
  | stepR (node : Nat) {path : List Pred} {leaf : Nat}
      (h : ¬ t.leftOf node = t.rightOf node)
      (tail : ReachLeaf t (t.rightOf node) path leaf) :
      ReachLeaf t node ((t.featOf node, ">", t.threshOf node) :: path) leaf

/-- Single-node example tree: the root is a leaf (equal child indices,
standing for scikit-learn's `-1`/`-1`), class counts `[3, 1]`, 4 samples. -/
def leafTree : DTree :=
  { children_left := [0]
    children_right := [0]
    feature := [0]
    threshold := [0]
    value := [[3, 1]]
    n_node_samples := [4]
    impurity := [0] }

/-- Three-node example tree: the root (10 samples) splits on feature 0 at
threshold 1; node 1 is the left leaf (4 samples), node 2 the right leaf
(6 samples). -/
def exTree : DTree :=
  { children_left := [1, 0, 0]
    children_right := [2, 0, 0]
    feature := [0, 0, 0]
    threshold := [1, 0, 0]
    value := [[5, 5], [4, 0], [1, 5]]
    n_node_samples := [10, 4, 6]
    impurity := [0, 0, 0] }

/-- Feature matrix (rows of numeric values), as handed to `trust_report`
via `X_train`/`X_test`.  The original holds machine floats; entries are
modelled as rationals. -/
abbrev Matrix := List (List ℚ)

/-- Column count of the matrix (`len(X_train.columns)` for a DataFrame,
`len(X_train[0])` otherwise): the number of blackbox input features. -/
def numCols (m : Matrix) : Nat := (m.headD []).length

/-- In-place column overwrite `X[:, j] = 0` performed by the ablation
loop on the matrix it holds. -/
def zeroColumn (m : Matrix) (j : Nat) : Matrix :=
  m.map (fun row => row.set j 0)

/-- Column `j` of the matrix reads as all zeros. -/
def isZeroCol (m : Matrix) (j : Nat) : Prop :=
  ∀ row ∈ m, row.getD j 0 = 0

/-- Per-label F1 contribution of scikit-learn's macro F1: harmonic mean of
precision and recall for label `c`, with the 0-valued convention when a
denominator vanishes. -/
def f1_for_label (yt yp : List Nat) (c : Nat) : ℚ :=
  let tp := ((yt.zip yp).filter (fun q => q.1 == c && q.2 == c)).length
  let fp := ((yt.zip yp).filter (fun q => !(q.1 == c) && q.2 == c)).length
  let fnc := ((yt.zip yp).filter (fun q => q.1 == c && !(q.2 == c))).length
  let prc : ℚ := if tp + fp = 0 then 0 else (tp : ℚ) / ((tp : ℚ) + (fp : ℚ))
  let rcl : ℚ := if tp + fnc = 0 then 0 else (tp : ℚ) / ((tp : ℚ) + (fnc : ℚ))
  if prc + rcl = 0 then 0 else 2 * prc * rcl / (prc + rcl)

/-- Macro-averaged (class-balanced) F1 score, modelling the external
library call `f1_score(y_true, y_pred, average="macro")`: the unweighted
mean over the occurring labels of their per-label F1. -/
def f1_macro (yt yp : List Nat) : ℚ :=
  let labels := (yt ++ yp).dedup
  if labels.length = 0 then 0
  else (labels.map (f1_for_label yt yp)).sum / (labels.length : ℚ)

/-- Stable insertion (descending by key) used to model Python's stable
`sorted(..., reverse=True)`: an element passes over strictly greater keys
and lands before the first key less than or equal to its own, so elements
with equal keys keep their original relative order. -/
def insertDescBy {α : Type} (key : α → Nat) (x : α) : List α → List α
  | [] => [x]
  | y :: ys => if key y > key x then y :: insertDescBy key x ys else x :: y :: ys

/-- Stable descending sort by key, modelling
`sorted(items, key=..., reverse=True)`. -/
def sortDescBy {α : Type} (key : α → Nat) : List α → List α
  | [] => []
  | x :: xs => insertDescBy key x (sortDescBy key xs)

/-- The `top_n` feature-usage entries ranked by cumulative sample count,
descending — `sorted(features.items(), key=lambda p: p[1]["samples"],
reverse=True)[:top_n]`. -/
def top_features (fu : List (Nat × FeatUse)) (top_n : Nat) : List (Nat × FeatUse) :=
  (sortDescBy (fun p => p.2.samples) fu).take top_n

/-- The feature of the first ranked usage entry
(`top_features[0][0]`), or `none` when the ranked list is empty — the
case in which the Python expression raises `IndexError`. -/
def selectTopFeature (fu : List (Nat × FeatUse)) (top_n : Nat) : Option Nat :=
  (top_features fu top_n).head?.map (fun p => p.1)

/-- One entry of `whitebox_iter`, the ablation loop's record list.  The
rendered classification-report strings are omitted; the fields kept are
the ones the loop computes and stores: iteration index, fitted surrogate,
blackbox and surrogate predictions, removed feature, cumulative removal
count, macro-F1 performance and macro-F1 fidelity. -/
structure IterRecord where
  it : Nat
  dt : DTree
  y_pred : List Nat
  dt_y_pred : List Nat
  feature_removed : Nat
  n_features_removed : Nat
  f1 : ℚ
  fidelity : ℚ

/-- State of the ablation loop of `trust_report`: the (mutated in place)
training and test matrices, the `it` and `n_features_removed` counters,
the accumulated records, and the feature selected for removal in the next
round. -/
structure LoopState where
  xtrain : Matrix
  xtest : Matrix
  it : Nat
  n_features_removed : Nat
  records : List IterRecord
  top_feature_to_remove : Nat

/-- Training matrix after the round's ablation
(`X_train[:, top_feature_to_remove] = 0`). -/
def ablatedTrain (s : LoopState) : Matrix :=
  zeroColumn s.xtrain s.top_feature_to_remove

/-- Test matrix after the round's ablation
(`X_test[:, top_feature_to_remove] = 0`). -/
def ablatedTest (s : LoopState) : Matrix :=
  zeroColumn s.xtest s.top_feature_to_remove

/-- Result `(dt, y_pred, dt_y_pred)` of `fit_and_explain` on the ablated
matrices.  `fit_and_explain` retrains the blackbox and runs the Dagger
extraction — both external ML libraries — so it enters the embedding as
the opaque function `fae` of the current matrices. -/
def roundData (fae : Matrix → Matrix → DTree × List Nat × List Nat)
    (s : LoopState) : DTree × List Nat × List Nat :=
  fae (ablatedTrain s) (ablatedTest s)

/-- Record appended to `whitebox_iter` in one round: performance is
`f1_score(y_test, y_pred, average="macro")` (blackbox vs ground truth) and
fidelity is `f1_score(y_pred, dt_y_pred, average="macro")` (surrogate vs
blackbox). -/
def recdOf (fae : Matrix → Matrix → DTree × List Nat × List Nat)
    (y_test : List Nat) (s : LoopState) : IterRecord :=
  { it := s.it
    dt := (roundData fae s).1
    y_pred := (roundData fae s).2.1
    dt_y_pred := (roundData fae s).2.2
    feature_removed := s.top_feature_to_remove
    n_features_removed := s.n_features_removed + 1
    f1 := f1_macro y_test (roundData fae s).2.1
    fidelity := f1_macro (roundData fae s).2.1 (roundData fae s).2.2 }

/-- Body of one round of the `while` loop of `trust_report`: ablate the
selected feature's column in both matrices, refit via `fit_and_explain`,
append the record, analyze the new surrogate with `get_dt_info`, and pick
the next feature from its ranked usage entries —
`iter_dt_top_features[0][0]`, which raises `IndexError` (modelled as
`Except.error ()`) when the new surrogate used no feature. -/
def loopBody (fae : Matrix → Matrix → DTree × List Nat × List Nat)
    (y_test : List Nat) (top_n : Nat) (s : LoopState) : Except Unit LoopState :=
  match selectTopFeature (get_dt_info (roundData fae s).1).features_used top_n with
  | none => Except.error ()
  | some f =>
    Except.ok
      { xtrain := ablatedTrain s
        xtest := ablatedTest s
        it := s.it + 1
        n_features_removed := s.n_features_removed + 1
        records := s.records ++ [recdOf fae y_test s]
        top_feature_to_remove := f }

/-- The `while it < max_iter and n_features_removed < bb_n_input_features`
loop.  `it` strictly increases each round, so fuel `max_iter` suffices for
the loop started at `it = 0`. -/
def trustLoop (fae : Matrix → Matrix → DTree × List Nat × List Nat)
    (y_test : List Nat) (top_n max_iter nfeat : Nat) :
    Nat → LoopState → Except Unit LoopState
  | 0, s => Except.ok s
  | fuel + 1, s =>
    if s.it < max_iter ∧ s.n_features_removed < nfeat then
      match loopBody fae y_test top_n s with
      | Except.error e => Except.error e
      | Except.ok s2 => trustLoop fae y_test top_n max_iter nfeat fuel s2
    else Except.ok s

/-- Data-collection phase of `trust_report` around the ablation loop:
analyze the first surrogate, select `first_dt_top_features[0][0]` (an
`IndexError`, i.e. `Except.error ()`, when the first surrogate used no
feature), then run the `while` loop with `bb_n_input_features` equal to
the column count of the supplied training matrix. -/
def trust_report_loop (fae : Matrix → Matrix → DTree × List Nat × List Nat)
    (y_test : List Nat) (top_n max_iter : Nat) (xtrain xtest : Matrix) :
    Except Unit LoopState :=
  match selectTopFeature (get_dt_info (fae xtrain xtest).1).features_used top_n with
  | none => Except.error ()
  | some f0 =>
    trustLoop fae y_test top_n max_iter (numCols xtrain) max_iter
      { xtrain := xtrain
        xtest := xtest
        it := 0
        n_features_removed := 0
        records := []
        top_feature_to_remove := f0 }

/-- Next-feature relation between consecutive ablation records: the later
round removes the feature selected from the earlier round's surrogate. -/
def selChain (top_n : Nat) (r1 r2 : IterRecord) : Prop :=
  selectTopFeature (get_dt_info r1.dt).features_used top_n = some r2.feature_removed

/-- Constant stand-in for `fit_and_explain` in concrete runs: it always
returns the three-node example surrogate together with fixed blackbox and
surrogate prediction vectors. -/
def wOracle : Matrix → Matrix → DTree × List Nat × List Nat :=
  fun _ _ => (exTree, [0, 1], [0, 1])

/-- Concrete two-column training matrix. -/
def wXtrain : Matrix := [[1, 2], [3, 4]]

/-- Concrete test matrix. -/
def wXtest : Matrix := [[5, 6]]

/-- Concrete ablation run: ground truth `[0, 1]`, `top_n = 10`,
`max_iter = 2`, two feature columns. -/
def wRes : Except Unit LoopState :=
  trust_report_loop wOracle [0, 1] 10 2 wXtrain wXtest

/-- Final state of the concrete ablation run. -/
def wOk : LoopState :=
  match wRes with
  | Except.ok s => s
  | Except.error _ => ⟨[], [], 0, 0, [], 0⟩

theorem lookupUse_updateUsage (fu : List (Nat × FeatUse)) (f g s : Nat) :
    lookupUse (updateUsage fu f s) g =
      if g = f then bumpUse (lookupUse fu f) s else lookupUse fu g := by
  induction fu with
  | nil =>
    by_cases h : g = f
    · subst h
      simp [updateUsage, lookupUse, bumpUse]
    · have hfg : ¬ f = g := fun h' => h h'.symm
      simp [updateUsage, lookupUse, h, hfg]
  | cons p rest ih =>
    obtain ⟨k, u⟩ := p
    by_cases hkf : k = f
    · subst hkf
      by_cases hgk : g = k
      · subst hgk
        simp [updateUsage, lookupUse, bumpUse]
      · have hkg : ¬ k = g := fun h => hgk h.symm
        simp [updateUsage, lookupUse, hgk, hkg]
    · by_cases hkg : k = g
      · subst hkg
        have hgf : ¬ k = f := hkf
        simp [updateUsage, lookupUse, hkf, hgf]
      · simp [updateUsage, lookupUse, hkf, hkg, ih]

theorem bumpUse_eq_addUse (o : Option FeatUse) (s : Nat) :
    bumpUse o s = addUse o 1 s := by
  cases o <;> simp [bumpUse, addUse]

theorem addUse_zero (o : Option FeatUse) : addUse o 0 0 = o := by
  simp [addUse]

theorem addUse_comp (o : Option FeatUse) (c1 s1 c2 s2 : Nat)
    (h1 : c1 = 0 → s1 = 0) (h2 : c2 = 0 → s2 = 0) :
    addUse (addUse o c1 s1) c2 s2 = addUse o (c1 + c2) (s1 + s2) := by
  rcases Nat.eq_zero_or_pos c1 with hc1 | hc1
  · subst hc1
    simp [h1 rfl, addUse]
  · rcases Nat.eq_zero_or_pos c2 with hc2 | hc2
    · subst hc2
      simp [h2 rfl, addUse, Nat.pos_iff_ne_zero.mp hc1]
    · cases o <;>
        simp [addUse, Nat.pos_iff_ne_zero.mp hc1, Nat.pos_iff_ne_zero.mp hc2,
          Nat.add_assoc]

theorem splitsOn_sum_zero (t : DTree) (fuel node f : Nat)
    (h : (splitsOn t fuel node f).length = 0) :
    ((splitsOn t fuel node f).map t.sampOf).sum = 0 := by
  rw [List.length_eq_zero] at h
  simp [h]

theorem walk_tree_succ_internal (t : DTree) (fuel node : Nat) (path : List Pred)
    (s : WalkState) (h : ¬ t.leftOf node = t.rightOf node) :
    walk_tree t (fuel + 1) node path s =
      ((walk_tree t fuel (t.leftOf node)
          (path ++ [(t.featOf node, "<=", t.threshOf node)]) (stepState t node s)).1 ++
        (walk_tree t fuel (t.rightOf node)
          (path ++ [(t.featOf node, ">", t.threshOf node)])
          (walk_tree t fuel (t.leftOf node)
            (path ++ [(t.featOf node, "<=", t.threshOf node)]) (stepState t node s)).2).1,
       (walk_tree t fuel (t.rightOf node)
          (path ++ [(t.featOf node, ">", t.threshOf node)])
          (walk_tree t fuel (t.leftOf node)
            (path ++ [(t.featOf node, "<=", t.threshOf node)]) (stepState t node s)).2).2) := by
  simp [walk_tree, h, stepState]

/-- State threading of `walk_tree`: the splits accumulator receives
exactly the pre-order internal nodes' split records, the returned branch
list is the left-to-right list of leaf branches, and each `features_used`
entry receives one count and the node's sample total per split on that
feature. -/
theorem walk_tree_state (t : DTree) :
    ∀ fuel node path s,
      (walk_tree t fuel node path s).2.splits
        = s.splits ++ (preorderInternals t fuel node).map (splitOf t) ∧
      (walk_tree t fuel node path s).1
        = (leafPaths t fuel node path).map (fun p => branchOf t p.1 p.2) ∧
      ∀ f, lookupUse (walk_tree t fuel node path s).2.features_used f
        = addUse (lookupUse s.features_used f)
            (splitsOn t fuel node f).length ((splitsOn t fuel node f).map t.sampOf).sum := by
  intro fuel
  induction fuel with
  | zero =>
    intro node path s
    refine ⟨by simp [walk_tree, preorderInternals], by simp [walk_tree, leafPaths], ?_⟩
    intro f
    simp [walk_tree, splitsOn, preorderInternals, addUse]
  | succ fuel ih =>
    intro node path s
    by_cases hleaf : t.leftOf node = t.rightOf node
    · refine ⟨?_, ?_, ?_⟩
      · simp [walk_tree, hleaf, preorderInternals]
      · simp [walk_tree, hleaf, leafPaths]
      · intro f
        simp [walk_tree, hleaf, splitsOn, preorderInternals, addUse]
    · obtain ⟨l1, l2, l3⟩ :=
        ih (t.leftOf node) (path ++ [(t.featOf node, "<=", t.threshOf node)])
          (stepState t node s)
      obtain ⟨r1, r2, r3⟩ :=
        ih (t.rightOf node) (path ++ [(t.featOf node, ">", t.threshOf node)])
          (walk_tree t fuel (t.leftOf node)
            (path ++ [(t.featOf node, "<=", t.threshOf node)]) (stepState t node s)).2
      rw [walk_tree_succ_internal t fuel node path s hleaf]
      refine ⟨?_, ?_, ?_⟩
      · rw [r1, l1]
        simp [stepState, preorderInternals, hleaf, List.map_append, List.append_assoc]
      · rw [l2, r2]
        simp [leafPaths, hleaf, List.map_append]
      · intro f
        rw [r3 f, l3 f]
        have hupd := lookupUse_updateUsage s.features_used (t.featOf node) f (t.sampOf node)
        by_cases hf : f = t.featOf node
        · rw [show (stepState t node s).features_used
              = updateUsage s.features_used (t.featOf node) (t.sampOf node) from rfl,
            hupd, if_pos hf, bumpUse_eq_addUse,
            addUse_comp _ _ _ _ _ (by omega)
              (fun h0 => splitsOn_sum_zero t fuel (t.leftOf node) f h0),
            addUse_comp _ _ _ _ _ (by omega)
              (fun h0 => splitsOn_sum_zero t fuel (t.rightOf node) f h0)]
          have hsplits : splitsOn t (fuel + 1) node f
              = node :: (splitsOn t fuel (t.leftOf node) f ++ splitsOn t fuel (t.rightOf node) f) := by
            simp [splitsOn, preorderInternals, hleaf, List.filter_append, List.filter_cons, hf.symm]
          rw [hsplits]
          have hc : 1 + (splitsOn t fuel (t.leftOf node) f).length
              + (splitsOn t fuel (t.rightOf node) f).length
              = (node :: (splitsOn t fuel (t.leftOf node) f ++ splitsOn t fuel (t.rightOf node) f)).length := by
            simp
            omega
          have hs : t.sampOf node + ((splitsOn t fuel (t.leftOf node) f).map t.sampOf).sum
              + ((splitsOn t fuel (t.rightOf node) f).map t.sampOf).sum
              = ((node :: (splitsOn t fuel (t.leftOf node) f ++ splitsOn t fuel (t.rightOf node) f)).map t.sampOf).sum := by
            simp
            omega
          rw [← hc, ← hs, hf]
        · rw [show (stepState t node s).features_used
              = updateUsage s.features_used (t.featOf node) (t.sampOf node) from rfl,
            hupd, if_neg hf,
            addUse_comp _ _ _ _ _
              (fun h0 => splitsOn_sum_zero t fuel (t.leftOf node) f h0)
              (fun h0 => splitsOn_sum_zero t fuel (t.rightOf node) f h0)]
          have hne : ¬ t.featOf node = f := fun h => hf h.symm
          have hsplits : splitsOn t (fuel + 1) node f
              = splitsOn t fuel (t.leftOf node) f ++ splitsOn t fuel (t.rightOf node) f := by
            simp [splitsOn, preorderInternals, hleaf, List.filter_append, List.filter_cons, hne]
          rw [hsplits]
          simp

theorem argmax_fold_aux (xs : List Nat) (l : List Nat) (b : Nat) :
    xs.getD b 0 ≤
      xs.getD (l.foldl (fun best i => if xs.getD i 0 > xs.getD best 0 then i else best) b) 0 ∧
    ∀ i ∈ l, xs.getD i 0 ≤
      xs.getD (l.foldl (fun best i => if xs.getD i 0 > xs.getD best 0 then i else best) b) 0 := by
  induction l generalizing b with
  | nil => exact ⟨le_refl _, by simp⟩
  | cons a l ih =>
    simp only [List.foldl_cons]
    have h1 : xs.getD b 0 ≤ xs.getD (if xs.getD a 0 > xs.getD b 0 then a else b) 0 := by
      by_cases h : xs.getD a 0 > xs.getD b 0
      · rw [if_pos h]
        exact Nat.le_of_lt h
      · rw [if_neg h]
    have h2 : xs.getD a 0 ≤ xs.getD (if xs.getD a 0 > xs.getD b 0 then a else b) 0 := by
      by_cases h : xs.getD a 0 > xs.getD b 0
      · rw [if_pos h]
      · rw [if_neg h]
        exact Nat.le_of_not_lt h
    obtain ⟨ihb, ihl⟩ := ih (if xs.getD a 0 > xs.getD b 0 then a else b)
    refine ⟨le_trans h1 ihb, ?_⟩
    intro i hi
    rcases List.mem_cons.mp hi with hi | hi
    · subst hi
      exact le_trans h2 ihb
    · exact ihl i hi

/-- The index returned by `np.argmax` carries a maximal entry. -/
theorem np_argmax_max (xs : List Nat) :
    ∀ c, c < xs.length → xs.getD c 0 ≤ xs.getD (np_argmax xs) 0 := by
  intro c hc
  have h := (argmax_fold_aux xs (List.range xs.length) 0).2 c (List.mem_range.mpr hc)
  simpa [np_argmax] using h

theorem WF.internal_facts {t : DTree} (hwf : WF t) {n : Nat} (hn : n < t.nodeCount)
    (hne : ¬ t.leftOf n = t.rightOf n) :
    n < t.leftOf n ∧ n < t.rightOf n ∧
    t.leftOf n < t.nodeCount ∧ t.rightOf n < t.nodeCount ∧
    t.sampOf n = t.sampOf (t.leftOf n) + t.sampOf (t.rightOf n) :=
  hwf.2.2.2.2.2.2.2.1 n hn hne

theorem WF.valsum {t : DTree} (hwf : WF t) {n : Nat} (hn : n < t.nodeCount) :
    (t.valOf n).sum = t.sampOf n :=
  hwf.2.2.2.2.2.2.2.2 n hn

theorem reach_mem_leafPaths {t : DTree} (hwf : WF t) :
    ∀ {node path leaf}, ReachLeaf t node path leaf →
      ∀ fuel, node < t.nodeCount → t.nodeCount - node ≤ fuel →
        ∀ pre, (leaf, pre ++ path) ∈ leafPaths t fuel node pre := by
  intro node path leaf hr
  induction hr with
  | here n h =>
    intro fuel hn hfuel pre
    cases fuel with
    | zero => omega
    | succ fuel => simp [leafPaths, h]
  | stepL n h tail ih =>
    intro fuel hn hfuel pre
    cases fuel with
    | zero => omega
    | succ fuel =>
      obtain ⟨hl1, _, hl3, _, _⟩ := hwf.internal_facts hn h
      have hmem := ih fuel hl3 (by omega) (pre ++ [(t.featOf n, "<=", t.threshOf n)])
      simp only [leafPaths, if_neg h]
      apply List.mem_append_left
      simpa [List.append_assoc] using hmem
  | stepR n h tail ih =>
    intro fuel hn hfuel pre
    cases fuel with
    | zero => omega
    | succ fuel =>
      obtain ⟨_, hr2, _, hr4, _⟩ := hwf.internal_facts hn h
      have hmem := ih fuel hr4 (by omega) (pre ++ [(t.featOf n, ">", t.threshOf n)])
      simp only [leafPaths, if_neg h]
      apply List.mem_append_right
      simpa [List.append_assoc] using hmem

/-- The branch records returned below a node account for exactly that
node's sample count. -/
theorem walk_branches_samples {t : DTree} (hwf : WF t) :
    ∀ fuel node path s, node < t.nodeCount → t.nodeCount - node ≤ fuel →
      (((walk_tree t fuel node path s).1).map Branch.samples).sum = t.sampOf node := by
  intro fuel
  induction fuel with
  | zero =>
    intro node path s hn hfuel
    omega
  | succ fuel ih =>
    intro node path s hn hfuel
    by_cases hleaf : t.leftOf node = t.rightOf node
    · simp [walk_tree, hleaf, branchOf]
    · obtain ⟨hl1, hr1, hl2, hr2, hsum⟩ := hwf.internal_facts hn hleaf
      rw [walk_tree_succ_internal t fuel node path s hleaf]
      simp only [List.map_append, List.sum_append]
      rw [ih (t.leftOf node) _ _ hl2 (by omega), ih (t.rightOf node) _ _ hr2 (by omega), hsum]

theorem addUse_none (c s : Nat) :
    addUse none c s = if c = 0 then none else some ⟨c, s⟩ := by
  by_cases hc : c = 0 <;> simp [addUse, hc]

theorem reach_lt {t : DTree} (hwf : WF t) :
    ∀ {node path leaf}, ReachLeaf t node path leaf → node < t.nodeCount →
      leaf < t.nodeCount := by
  intro node path leaf hr
  induction hr with
  | here n h => exact fun hn => hn
  | stepL n h tail ih =>
    intro hn
    exact ih (hwf.internal_facts hn h).2.2.1
  | stepR n h tail ih =>
    intro hn
    exact ih (hwf.internal_facts hn h).2.2.2.1

/-- C9: the trust verdict type is a closed three-valued variant —
Trustworthy, Inconclusive, Untrustworthy, pairwise distinct and exhaustive
— whose display colors green, yellow, red are retrieved via the `color`
lookup. -/
theorem verdict_tri_state :
    (∀ v : BlackboxVerdict, v = .TRUSTWORTHY ∨ v = .INCONCLUSIVE ∨ v = .UNTRUSTWORTHY) ∧
    BlackboxVerdict.TRUSTWORTHY.color = "green" ∧
    BlackboxVerdict.INCONCLUSIVE.color = "yellow" ∧
    BlackboxVerdict.UNTRUSTWORTHY.color = "red" ∧
    BlackboxVerdict.TRUSTWORTHY ≠ BlackboxVerdict.INCONCLUSIVE ∧
    BlackboxVerdict.TRUSTWORTHY ≠ BlackboxVerdict.UNTRUSTWORTHY ∧
    BlackboxVerdict.INCONCLUSIVE ≠ BlackboxVerdict.UNTRUSTWORTHY := by
  refine ⟨?_, rfl, rfl, rfl, by decide, by decide, by decide⟩
  intro v
  cases v
  · exact Or.inl rfl
  · exact Or.inr (Or.inl rfl)
  · exact Or.inr (Or.inr rfl)

/-- C3: analyzing a tree whose root is itself a leaf (left child index
equals right child index at node 0) returns an empty feature-usage
mapping, an empty split list, and exactly one branch, whose predicate
path is empty. -/
theorem root_leaf_analysis (t : DTree) (hn : 0 < t.nodeCount)
    (hleaf : t.leftOf 0 = t.rightOf 0) :
    (get_dt_info t).features_used = [] ∧
    (get_dt_info t).splits = [] ∧
    ∃ b, (get_dt_info t).branches = [b] ∧ b.path = [] := by
  obtain ⟨k, hk⟩ : ∃ k, t.nodeCount = k + 1 := ⟨t.nodeCount - 1, by omega⟩
  refine ⟨?_, ?_, ⟨branchOf t 0 [], ?_, rfl⟩⟩ <;>
    simp [get_dt_info, hk, walk_tree, hleaf]

/-- Witness for C3 at the concrete single-leaf tree. -/
theorem root_leaf_analysis_witness :
    (0 < leafTree.nodeCount ∧ leafTree.leftOf 0 = leafTree.rightOf 0) ∧
    ((get_dt_info leafTree).features_used = [] ∧
      (get_dt_info leafTree).splits = [] ∧
      ∃ b, (get_dt_info leafTree).branches = [b] ∧ b.path = []) :=
  ⟨⟨by decide, by decide⟩, root_leaf_analysis leafTree (by decide) (by decide)⟩

/-- C1 is false as stated: on the well-formed three-node example tree,
`samples_sum = np.sum(samples)` is 20 (it sums `n_node_samples` over all
nodes), while the root's total sample count — which does equal the sum of
the branches' sample counts — is 10. -/
theorem samples_sum_counterexample :
    WF exTree ∧
    (get_dt_info exTree).samples_sum = 20 ∧
    exTree.sampOf 0 = 10 ∧
    ((get_dt_info exTree).branches.map Branch.samples).sum = 10 ∧
    ¬ (get_dt_info exTree).samples_sum = exTree.sampOf 0 :=
  ⟨by decide, by decide, by decide, by decide, by decide⟩

/-- C1 (amended): for every well-formed tree, the `total_samples` value
returned by `get_dt_info` is the sum of `n_node_samples` over all nodes of
the tree (root and internal nodes included), not the root's total; the sum
of the returned branches' sample counts does equal the root's total sample
count.  The two coincide only when the tree is a single node. -/
theorem samples_sum_spec (t : DTree) (hwf : WF t) :
    (get_dt_info t).samples_sum = t.n_node_samples.sum ∧
    ((get_dt_info t).branches.map Branch.samples).sum = t.sampOf 0 := by
  refine ⟨rfl, ?_⟩
  exact walk_branches_samples hwf t.nodeCount 0 [] ⟨[], []⟩ hwf.1 (by omega)

/-- Witness for the amended C1 at the concrete three-node tree. -/
theorem samples_sum_spec_witness :
    WF exTree ∧
    ((get_dt_info exTree).samples_sum = exTree.n_node_samples.sum ∧
      ((get_dt_info exTree).branches.map Branch.samples).sum = exTree.sampOf 0) :=
  ⟨by decide, samples_sum_spec exTree (by decide)⟩

/-- C5: the analyzer is a pre-order traversal (node, then left subtree,
then right subtree, starting at the root): the split records are exactly
the pre-order internal nodes' records, the branch records are the leaves'
records in left-to-right order, and each feature's usage entry holds its
number of splits and the sum of the splitting nodes' sample counts (one
count and one sample-total contribution per split on that feature). -/
theorem analyzer_preorder (t : DTree) :
    (get_dt_info t).splits = (preorderInternals t t.nodeCount 0).map (splitOf t) ∧
    (get_dt_info t).branches
      = (leafPaths t t.nodeCount 0 []).map (fun p => branchOf t p.1 p.2) ∧
    ∀ f, lookupUse (get_dt_info t).features_used f
      = (if (splitsOn t t.nodeCount 0 f).length = 0 then none
         else some ⟨(splitsOn t t.nodeCount 0 f).length,
           ((splitsOn t t.nodeCount 0 f).map t.sampOf).sum⟩) := by
  obtain ⟨h1, h2, h3⟩ := walk_tree_state t t.nodeCount 0 [] ⟨[], []⟩
  refine ⟨?_, ?_, ?_⟩
  · simpa [get_dt_info] using h1
  · simpa [get_dt_info] using h2
  · intro f
    have h := h3 f
    rw [show lookupUse (⟨[], []⟩ : WalkState).features_used f = none from rfl,
      addUse_none] at h
    simpa [get_dt_info] using h

/-- C4: for a well-formed tree, every root-to-leaf descent (left edges
contributing `(feature, "<=", threshold)`, right edges `(feature, ">",
threshold)`) has a corresponding returned branch: its path is the descent's
predicate sequence, its predicted class is the arg-max (first maximal
index) of the leaf's class-count vector, its probability is that class's
count divided by the leaf's total sample count times 100, and its sample
count is the leaf's total sample count. -/
theorem leaf_branch_spec (t : DTree) (hwf : WF t) (path : List Pred) (leaf : Nat)
    (hreach : ReachLeaf t 0 path leaf) :
    ∃ b ∈ (get_dt_info t).branches,
      b.path = path ∧
      b.cls = np_argmax (t.valOf leaf) ∧
      (∀ c, c < (t.valOf leaf).length →
        (t.valOf leaf).getD c 0 ≤ (t.valOf leaf).getD b.cls 0) ∧
      b.prob = (((t.valOf leaf).getD (np_argmax (t.valOf leaf)) 0 : ℚ) /
        (t.sampOf leaf : ℚ)) * 100 ∧
      b.samples = t.sampOf leaf := by
  have hleafN : leaf < t.nodeCount := reach_lt hwf hreach hwf.1
  have hmem := reach_mem_leafPaths hwf hreach t.nodeCount hwf.1 (by omega) []
  have hbr := (walk_tree_state t t.nodeCount 0 [] ⟨[], []⟩).2.1
  refine ⟨branchOf t leaf path, ?_, rfl, rfl, ?_, ?_, rfl⟩
  · have : (get_dt_info t).branches
        = (leafPaths t t.nodeCount 0 []).map (fun p => branchOf t p.1 p.2) := by
      simpa [get_dt_info] using hbr
    rw [this]
    exact List.mem_map.mpr ⟨(leaf, [] ++ path), hmem, by simp⟩
  · exact fun c hc => np_argmax_max (t.valOf leaf) c hc
  · show (((t.valOf leaf).getD (np_argmax (t.valOf leaf)) 0 : ℚ) /
        ((t.valOf leaf).sum : ℚ)) * 100 = _
    rw [hwf.valsum hleafN]

/-- Witness for C4 at the concrete three-node tree: the left leaf (node 1)
is reached by the single predicate `feature 0 <= 1`. -/
theorem leaf_branch_spec_witness :
    (WF exTree ∧ ReachLeaf exTree 0 [(0, "<=", (1 : ℚ))] 1) ∧
    (∃ b ∈ (get_dt_info exTree).branches,
      b.path = [(0, "<=", (1 : ℚ))] ∧
      b.cls = np_argmax (exTree.valOf 1) ∧
      (∀ c, c < (exTree.valOf 1).length →
        (exTree.valOf 1).getD c 0 ≤ (exTree.valOf 1).getD b.cls 0) ∧
      b.prob = (((exTree.valOf 1).getD (np_argmax (exTree.valOf 1)) 0 : ℚ) /
        (exTree.sampOf 1 : ℚ)) * 100 ∧
      b.samples = exTree.sampOf 1) :=
  ⟨⟨by decide, ReachLeaf.stepL 0 (by decide) (ReachLeaf.here 1 (by decide))⟩,
    leaf_branch_spec exTree (by decide) [(0, "<=", (1 : ℚ))] 1
      (ReachLeaf.stepL 0 (by decide) (ReachLeaf.here 1 (by decide)))⟩

theorem getD_set_self_zero (l : List ℚ) (j : Nat) : (l.set j 0).getD j 0 = 0 := by
  rcases Nat.lt_or_ge j l.length with h | h
  · rw [List.getD_eq_getElem?_getD, List.getElem?_set_self h]
    rfl
  · rw [List.getD_eq_getElem?_getD, List.getElem?_eq_none (by simpa using h)]
    rfl

theorem getD_set_ne_zero (l : List ℚ) (i j : Nat) (h : i ≠ j) :
    (l.set i 0).getD j 0 = l.getD j 0 := by
  rw [List.getD_eq_getElem?_getD, List.getD_eq_getElem?_getD, List.getElem?_set_ne h]

theorem isZeroCol_zeroColumn_self (m : Matrix) (j : Nat) :
    isZeroCol (zeroColumn m j) j := by
  intro row hrow
  obtain ⟨row0, _, rfl⟩ := List.mem_map.mp hrow
  exact getD_set_self_zero row0 j

theorem isZeroCol_zeroColumn (m : Matrix) (i j : Nat) (h : isZeroCol m i) :
    isZeroCol (zeroColumn m j) i := by
  by_cases hij : j = i
  · subst hij
    exact isZeroCol_zeroColumn_self m j
  · intro row hrow
    obtain ⟨row0, h0, rfl⟩ := List.mem_map.mp hrow
    rw [getD_set_ne_zero row0 j i hij]
    exact h row0 h0

theorem mem_insertDescBy {α : Type} (key : α → Nat) (x : α) (l : List α) (y : α) :
    y ∈ insertDescBy key x l ↔ y = x ∨ y ∈ l := by
  induction l with
  | nil => simp [insertDescBy]
  | cons z zs ih =>
    by_cases h : key z > key x
    · simp only [insertDescBy, if_pos h, List.mem_cons, ih]
      tauto
    · simp only [insertDescBy, if_neg h, List.mem_cons]

theorem pairwise_insertDescBy {α : Type} (key : α → Nat) (x : α) (l : List α)
    (h : List.Pairwise (fun a b => key b ≤ key a) l) :
    List.Pairwise (fun a b => key b ≤ key a) (insertDescBy key x l) := by
  induction l with
  | nil => simp [insertDescBy]
  | cons z zs ih =>
    obtain ⟨hz, hzs⟩ := List.pairwise_cons.mp h
    by_cases hk : key z > key x
    · rw [insertDescBy, if_pos hk]
      refine List.pairwise_cons.mpr ⟨?_, ih hzs⟩
      intro w hw
      rcases (mem_insertDescBy key x zs w).mp hw with rfl | hw
      · exact Nat.le_of_lt hk
      · exact hz w hw
    · rw [insertDescBy, if_neg hk]
      refine List.pairwise_cons.mpr ⟨?_, h⟩
      intro w hw
      rcases List.mem_cons.mp hw with rfl | hw
      · exact Nat.le_of_not_lt hk
      · exact le_trans (hz w hw) (Nat.le_of_not_lt hk)

theorem mem_sortDescBy {α : Type} (key : α → Nat) (l : List α) (y : α) :
    y ∈ sortDescBy key l ↔ y ∈ l := by
  induction l with
  | nil => simp [sortDescBy]
  | cons x xs ih => simp [sortDescBy, mem_insertDescBy, ih]

theorem pairwise_sortDescBy {α : Type} (key : α → Nat) (l : List α) :
    List.Pairwise (fun a b => key b ≤ key a) (sortDescBy key l) := by
  induction l with
  | nil => simp [sortDescBy]
  | cons x xs ih => exact pairwise_insertDescBy key x _ ih

/-- The feature selected by `top_features[0][0]` carries the maximum
cumulative sample count among all usage entries. -/
theorem selectTopFeature_max (fu : List (Nat × FeatUse)) (top_n f : Nat)
    (h : selectTopFeature fu top_n = some f) :
    ∃ u, (f, u) ∈ fu ∧ ∀ p ∈ fu, p.2.samples ≤ u.samples := by
  unfold selectTopFeature top_features at h
  rw [List.head?_take] at h
  by_cases hn : top_n = 0
  · rw [if_pos hn] at h
    simp at h
  · rw [if_neg hn] at h
    cases hs : sortDescBy (fun p => p.2.samples) fu with
    | nil =>
      rw [hs] at h
      simp at h
    | cons p rest =>
      rw [hs] at h
      simp only [List.head?_cons, Option.map_some] at h
      obtain rfl : p.1 = f := Option.some.injEq _ _ ▸ h
      refine ⟨p.2, ?_, ?_⟩
      · have hp : p ∈ sortDescBy (fun p => p.2.samples) fu := by
          rw [hs]
          exact List.mem_cons_self p rest
        simpa using (mem_sortDescBy _ fu p).mp hp
      · intro q hq
        have hq2 : q ∈ sortDescBy (fun p => p.2.samples) fu :=
          (mem_sortDescBy _ fu q).mpr hq
        rw [hs] at hq2
        rcases List.mem_cons.mp hq2 with rfl | hq2
        · exact le_refl _
        · have hpw := pairwise_sortDescBy (fun p : Nat × FeatUse => p.2.samples) fu
          rw [hs] at hpw
          exact (List.pairwise_cons.mp hpw).1 q hq2

/-- A tree whose root is a leaf contributes no feature-usage entries. -/
theorem leafRoot_features_used_nil (t : DTree) (h : t.leftOf 0 = t.rightOf 0) :
    (get_dt_info t).features_used = [] := by
  cases hn : t.nodeCount with
  | zero => simp [get_dt_info, hn, walk_tree]
  | succ k => simp [get_dt_info, hn, walk_tree, h]

theorem selectTopFeature_nil (top_n : Nat) : selectTopFeature [] top_n = none := by
  simp [selectTopFeature, top_features, sortDescBy]

/-- Characterization of a successful loop round. -/
theorem loopBody_ok {fae : Matrix → Matrix → DTree × List Nat × List Nat}
    {y_test : List Nat} {top_n : Nat} {s s1 : LoopState}
    (h : loopBody fae y_test top_n s = Except.ok s1) :
    ∃ f, selectTopFeature (get_dt_info (roundData fae s).1).features_used top_n = some f ∧
      s1 = { xtrain := ablatedTrain s
             xtest := ablatedTest s
             it := s.it + 1
             n_features_removed := s.n_features_removed + 1
             records := s.records ++ [recdOf fae y_test s]
             top_feature_to_remove := f } := by
  unfold loopBody at h
  split at h
  · exact absurd h (by simp)
  · rename_i f hsel
    injection h with h2
    exact ⟨f, hsel, h2.symm⟩

/-- Invariant preservation through the `while` loop. -/
theorem trustLoop_inv {fae : Matrix → Matrix → DTree × List Nat × List Nat}
    {y_test : List Nat} {top_n max_iter nfeat : Nat} (P : LoopState → Prop)
    (hP : ∀ s s1, loopBody fae y_test top_n s = Except.ok s1 → P s → P s1) :
    ∀ fuel s s2, trustLoop fae y_test top_n max_iter nfeat fuel s = Except.ok s2 →
      P s → P s2 := by
  intro fuel
  induction fuel with
  | zero =>
    intro s s2 h hs
    simp [trustLoop] at h
    exact h ▸ hs
  | succ fuel ih =>
    intro s s2 h hs
    unfold trustLoop at h
    by_cases hc : s.it < max_iter ∧ s.n_features_removed < nfeat
    · rw [if_pos hc] at h
      cases hb : loopBody fae y_test top_n s with
      | error e =>
        rw [hb] at h
        exact absurd h (by simp)
      | ok s1 =>
        rw [hb] at h
        exact ih s1 s2 h (hP s s1 hb hs)
    · rw [if_neg hc] at h
      injection h with h2
      exact h2 ▸ hs

/-- Round counting: when the loop completes without error, it has run
exactly `min max_iter nfeat` rounds. -/
theorem trustLoop_length {fae : Matrix → Matrix → DTree × List Nat × List Nat}
    {y_test : List Nat} {top_n max_iter nfeat : Nat} :
    ∀ fuel s s2, trustLoop fae y_test top_n max_iter nfeat fuel s = Except.ok s2 →
      s.it = s.n_features_removed → s.records.length = s.it →
      s.it ≤ max_iter → s.it ≤ nfeat → max_iter - s.it ≤ fuel →
      s2.records.length = min max_iter nfeat := by
  intro fuel
  induction fuel with
  | zero =>
    intro s s2 h h1 h2 h3 h4 h5
    simp [trustLoop] at h
    subst h
    omega
  | succ fuel ih =>
    intro s s2 h h1 h2 h3 h4 h5
    unfold trustLoop at h
    by_cases hc : s.it < max_iter ∧ s.n_features_removed < nfeat
    · rw [if_pos hc] at h
      cases hb : loopBody fae y_test top_n s with
      | error e =>
        rw [hb] at h
        exact absurd h (by simp)
      | ok s1 =>
        rw [hb] at h
        obtain ⟨f, hsel, hs1⟩ := loopBody_ok hb
        subst hs1
        refine ih _ s2 h ?_ ?_ ?_ ?_ ?_ <;> simp <;> omega
    · rw [if_neg hc] at h
      injection h with h2
      subst h2
      omega

/-- C6: when the ablation loop of `trust_report` completes without error
on a training matrix with `F = numCols xtrain` feature columns, it
executes exactly `min max_iter F` rounds — it stops at `max_iter` rounds
or when the removal counter reaches `F`, whichever comes first (one
record, one `it` increment and one removal-counter increment per round). -/
theorem ablation_round_count (fae : Matrix → Matrix → DTree × List Nat × List Nat)
    (y_test : List Nat) (top_n max_iter : Nat) (xtrain xtest : Matrix) (s2 : LoopState)
    (h : trust_report_loop fae y_test top_n max_iter xtrain xtest = Except.ok s2) :
    s2.records.length = min max_iter (numCols xtrain) ∧
    s2.it = s2.records.length ∧ s2.n_features_removed = s2.records.length := by
  unfold trust_report_loop at h
  split at h
  · exact absurd h (by simp)
  · rename_i f0 hsel0
    have hmin := trustLoop_length max_iter _ s2 h rfl rfl (by simp) (by simp) (by simp)
    have hcnt := trustLoop_inv
      (fun s => s.records.length = s.it ∧ s.it = s.n_features_removed)
      (fun s s1 hb hs => by
        obtain ⟨f, hsel, hs1⟩ := loopBody_ok hb
        subst hs1
        simp
        omega)
      max_iter _ s2 h ⟨rfl, rfl⟩
    exact ⟨hmin, by omega⟩

/-- C7: every record appended by the ablation loop carries its round's
iteration index (`records.map it = [0, 1, ...]`), the cumulative removal
count `it + 1`, a performance score that is the macro F1 of the blackbox
predictions against the ground-truth labels, and a fidelity score that is
the macro F1 of the surrogate predictions against the blackbox
predictions — not against the ground truth. -/
theorem ablation_record_fields (fae : Matrix → Matrix → DTree × List Nat × List Nat)
    (y_test : List Nat) (top_n max_iter : Nat) (xtrain xtest : Matrix) (s2 : LoopState)
    (h : trust_report_loop fae y_test top_n max_iter xtrain xtest = Except.ok s2) :
    s2.records.map IterRecord.it = List.range s2.records.length ∧
    ∀ r ∈ s2.records,
      r.n_features_removed = r.it + 1 ∧
      r.f1 = f1_macro y_test r.y_pred ∧
      r.fidelity = f1_macro r.y_pred r.dt_y_pred := by
  unfold trust_report_loop at h
  split at h
  · exact absurd h (by simp)
  · rename_i f0 hsel0
    have hP := trustLoop_inv
      (fun s => s.records.map IterRecord.it = List.range s.records.length ∧
        s.records.length = s.it ∧ s.it = s.n_features_removed ∧
        ∀ r ∈ s.records, r.n_features_removed = r.it + 1 ∧
          r.f1 = f1_macro y_test r.y_pred ∧ r.fidelity = f1_macro r.y_pred r.dt_y_pred)
      (fun s s1 hb hs => by
        obtain ⟨hmap, hlen, hit, hrec⟩ := hs
        obtain ⟨f, hsel, hs1⟩ := loopBody_ok hb
        subst hs1
        refine ⟨?_, ?_, ?_, ?_⟩
        · simp only [List.map_append, List.length_append]
          rw [hmap, hlen]
          simp [recdOf, List.range_succ]
        · simp
          omega
        · simp
          omega
        · intro r hr
          rcases List.mem_append.mp hr with hr | hr
          · exact hrec r hr
          · rw [List.mem_singleton] at hr
            subst hr
            refine ⟨?_, rfl, rfl⟩
            simp [recdOf]
            omega)
      max_iter _ s2 h ⟨rfl, rfl, rfl, by simp⟩
    exact ⟨hP.1, hP.2.2.2⟩

/-- C2 (amended): the ablation loop mutates the caller-supplied matrices
in place — after a completed loop, the held training and test matrices are
the originals with each removed feature's column overwritten with zeros,
not untouched copies. -/
theorem ablation_mutates_matrices (fae : Matrix → Matrix → DTree × List Nat × List Nat)
    (y_test : List Nat) (top_n max_iter : Nat) (xtrain xtest : Matrix) (s2 : LoopState)
    (h : trust_report_loop fae y_test top_n max_iter xtrain xtest = Except.ok s2) :
    s2.xtrain = (s2.records.map IterRecord.feature_removed).foldl zeroColumn xtrain ∧
    s2.xtest = (s2.records.map IterRecord.feature_removed).foldl zeroColumn xtest := by
  unfold trust_report_loop at h
  split at h
  · exact absurd h (by simp)
  · rename_i f0 hsel0
    exact trustLoop_inv
      (fun s =>
        s.xtrain = (s.records.map IterRecord.feature_removed).foldl zeroColumn xtrain ∧
        s.xtest = (s.records.map IterRecord.feature_removed).foldl zeroColumn xtest)
      (fun s s1 hb hs => by
        obtain ⟨htr, hte⟩ := hs
        obtain ⟨f, hsel, hs1⟩ := loopBody_ok hb
        subst hs1
        constructor
        · show ablatedTrain s = _
          simp [ablatedTrain, recdOf, htr]
        · show ablatedTest s = _
          simp [ablatedTest, recdOf, hte])
      max_iter _ s2 h ⟨rfl, rfl⟩

/-- C8: the feature removed in each round is the one with maximum
cumulative sample count in the current surrogate's feature-usage mapping:
the selection function (head of the usage entries sorted descending by
cumulative samples) always returns a maximal entry, the first record
removes the feature selected from the initial surrogate, each later
record removes the feature selected from the previous record's surrogate,
and every removed feature's column is still zero in both held matrices
when the loop finishes — features are never un-ablated. -/
theorem ablation_feature_choice (fae : Matrix → Matrix → DTree × List Nat × List Nat)
    (y_test : List Nat) (top_n max_iter : Nat) (xtrain xtest : Matrix) (s2 : LoopState)
    (h : trust_report_loop fae y_test top_n max_iter xtrain xtest = Except.ok s2) :
    (∀ fu tn f, selectTopFeature fu tn = some f →
      ∃ u, (f, u) ∈ fu ∧ ∀ p ∈ fu, p.2.samples ≤ u.samples) ∧
    (∀ r ∈ s2.records.head?,
      selectTopFeature (get_dt_info (fae xtrain xtest).1).features_used top_n
        = some r.feature_removed) ∧
    List.Chain' (selChain top_n) s2.records ∧
    (∀ r ∈ s2.records,
      isZeroCol s2.xtrain r.feature_removed ∧ isZeroCol s2.xtest r.feature_removed) := by
  unfold trust_report_loop at h
  split at h
  · exact absurd h (by simp)
  · rename_i f0 hsel0
    have hchain := trustLoop_inv
      (fun s => List.Chain' (selChain top_n) s.records ∧
        ∀ x ∈ s.records.getLast?,
          selectTopFeature (get_dt_info x.dt).features_used top_n
            = some s.top_feature_to_remove)
      (fun s s1 hb hs => by
        obtain ⟨hch, hlast⟩ := hs
        obtain ⟨f, hsel, hs1⟩ := loopBody_ok hb
        subst hs1
        constructor
        · refine List.chain'_append.mpr ⟨hch, List.chain'_singleton _, ?_⟩
          intro x hx y hy
          simp at hy
          subst hy
          have hx2 := hlast x hx
          simpa [selChain, recdOf] using hx2
        · intro x hx
          simp only [List.getLast?_concat] at hx
          simp at hx
          subst hx
          simpa [recdOf, roundData] using hsel)
      max_iter _ s2 h ⟨List.chain'_nil, by simp⟩
    have hhead := trustLoop_inv
      (fun s => (s.records = [] → s.top_feature_to_remove = f0) ∧
        ∀ r ∈ s.records.head?, r.feature_removed = f0)
      (fun s s1 hb hs => by
        obtain ⟨hemp, hhd⟩ := hs
        obtain ⟨f, hsel, hs1⟩ := loopBody_ok hb
        subst hs1
        constructor
        · intro habs
          simp at habs
        · intro r hr
          cases hrec : s.records with
          | nil =>
            rw [hrec] at hr
            simp at hr
            subst hr
            simpa [recdOf] using hemp hrec
          | cons a l =>
            rw [hrec] at hr
            simp at hr
            subst hr
            have : a ∈ (s.records).head? := by
              rw [hrec]
              rfl
            exact hhd a this)
      max_iter _ s2 h ⟨fun _ => rfl, by simp⟩
    have hzero := trustLoop_inv
      (fun s => ∀ r ∈ s.records,
        isZeroCol s.xtrain r.feature_removed ∧ isZeroCol s.xtest r.feature_removed)
      (fun s s1 hb hs => by
        obtain ⟨f, hsel, hs1⟩ := loopBody_ok hb
        subst hs1
        intro r hr
        rcases List.mem_append.mp hr with hr | hr
        · obtain ⟨h1, h2⟩ := hs r hr
          exact ⟨isZeroCol_zeroColumn _ _ _ h1, isZeroCol_zeroColumn _ _ _ h2⟩
        · rw [List.mem_singleton] at hr
          subst hr
          exact ⟨by simpa [recdOf, ablatedTrain] using
              isZeroCol_zeroColumn_self s.xtrain s.top_feature_to_remove,
            by simpa [recdOf, ablatedTest] using
              isZeroCol_zeroColumn_self s.xtest s.top_feature_to_remove⟩)
      max_iter _ s2 h (by simp)
    refine ⟨fun fu tn f hf => selectTopFeature_max fu tn f hf, ?_, hchain.1, hzero⟩
    intro r hr
    rw [hhead.2 r hr]
    exact hsel0

/-- C10: a surrogate tree that is a single leaf yields an empty
feature-usage mapping, so the ranked-feature list is empty and the
selection `top_features[0][0]` fails — `trust_report` aborts with an
`IndexError` (modelled as `Except.error ()`).  Consequently a completed
run certifies that neither the initial surrogate nor any surrogate fitted
during the ablation rounds was a single leaf: their absence is an
unstated precondition for `trust_report` to finish. -/
theorem leaf_surrogate_precondition :
    (∀ t : DTree, t.leftOf 0 = t.rightOf 0 →
      ∀ tn, selectTopFeature (get_dt_info t).features_used tn = none) ∧
    (∀ (fae : Matrix → Matrix → DTree × List Nat × List Nat)
      (y_test : List Nat) (top_n max_iter : Nat) (xtrain xtest : Matrix),
      (fae xtrain xtest).1.leftOf 0 = (fae xtrain xtest).1.rightOf 0 →
      trust_report_loop fae y_test top_n max_iter xtrain xtest = Except.error ()) ∧
    (∀ (fae : Matrix → Matrix → DTree × List Nat × List Nat)
      (y_test : List Nat) (top_n max_iter : Nat) (xtrain xtest : Matrix)
      (s2 : LoopState),
      trust_report_loop fae y_test top_n max_iter xtrain xtest = Except.ok s2 →
      ¬ (fae xtrain xtest).1.leftOf 0 = (fae xtrain xtest).1.rightOf 0 ∧
      ∀ r ∈ s2.records, ¬ r.dt.leftOf 0 = r.dt.rightOf 0) := by
  have hkey : ∀ t : DTree, t.leftOf 0 = t.rightOf 0 →
      ∀ tn, selectTopFeature (get_dt_info t).features_used tn = none := by
    intro t ht tn
    rw [leafRoot_features_used_nil t ht]
    exact selectTopFeature_nil tn
  refine ⟨hkey, ?_, ?_⟩
  · intro fae y_test top_n max_iter xtrain xtest hleaf
    unfold trust_report_loop
    rw [hkey _ hleaf top_n]
  · intro fae y_test top_n max_iter xtrain xtest s2 h
    have hne : ¬ (fae xtrain xtest).1.leftOf 0 = (fae xtrain xtest).1.rightOf 0 := by
      intro hleaf
      unfold trust_report_loop at h
      rw [hkey _ hleaf top_n] at h
      exact absurd h (by simp)
    refine ⟨hne, ?_⟩
    unfold trust_report_loop at h
    split at h
    · exact absurd h (by simp)
    · rename_i f0 hsel0
      exact trustLoop_inv
        (fun s => ∀ r ∈ s.records, ¬ r.dt.leftOf 0 = r.dt.rightOf 0)
        (fun s s1 hb hs => by
          obtain ⟨f, hsel, hs1⟩ := loopBody_ok hb
          subst hs1
          intro r hr
          rcases List.mem_append.mp hr with hr | hr
          · exact hs r hr
          · rw [List.mem_singleton] at hr
            subst hr
            intro hleaf
            have hnone := hkey (roundData fae s).1 (by simpa [recdOf] using hleaf) top_n
            rw [hnone] at hsel
            exact Option.noConfusion hsel)
        max_iter _ s2 h (by simp)

/-- Witness for C6: the concrete run completes and executes
`min 2 (numCols wXtrain) = 2` rounds. -/
theorem ablation_round_count_witness :
    trust_report_loop wOracle [0, 1] 10 2 wXtrain wXtest = Except.ok wOk ∧
    (wOk.records.length = min 2 (numCols wXtrain) ∧
      wOk.it = wOk.records.length ∧ wOk.n_features_removed = wOk.records.length) :=
  ⟨rfl, ablation_round_count wOracle [0, 1] 10 2 wXtrain wXtest wOk rfl⟩

/-- Witness for C7 at the concrete run. -/
theorem ablation_record_fields_witness :
    trust_report_loop wOracle [0, 1] 10 2 wXtrain wXtest = Except.ok wOk ∧
    (wOk.records.map IterRecord.it = List.range wOk.records.length ∧
      ∀ r ∈ wOk.records,
        r.n_features_removed = r.it + 1 ∧
        r.f1 = f1_macro [0, 1] r.y_pred ∧
        r.fidelity = f1_macro r.y_pred r.dt_y_pred) :=
  ⟨rfl, ablation_record_fields wOracle [0, 1] 10 2 wXtrain wXtest wOk rfl⟩

/-- C2 is false as stated: on the concrete run the loop's held matrices
differ from the caller-supplied ones — the zeroing is an in-place
mutation of the shared matrices, not a fresh view. -/
theorem ablation_no_mutation_counterexample :
    trust_report_loop wOracle [0, 1] 10 2 wXtrain wXtest = Except.ok wOk ∧
    ¬ wOk.xtrain = wXtrain ∧ ¬ wOk.xtest = wXtest :=
  ⟨rfl, by decide, by decide⟩

/-- Witness for the amended C2 at the concrete run. -/
theorem ablation_mutates_matrices_witness :
    trust_report_loop wOracle [0, 1] 10 2 wXtrain wXtest = Except.ok wOk ∧
    (wOk.xtrain = (wOk.records.map IterRecord.feature_removed).foldl zeroColumn wXtrain ∧
      wOk.xtest = (wOk.records.map IterRecord.feature_removed).foldl zeroColumn wXtest) :=
  ⟨rfl, ablation_mutates_matrices wOracle [0, 1] 10 2 wXtrain wXtest wOk rfl⟩

/-- Witness for C8 at the concrete run. -/
theorem ablation_feature_choice_witness :
    trust_report_loop wOracle [0, 1] 10 2 wXtrain wXtest = Except.ok wOk ∧
    ((∀ fu tn f, selectTopFeature fu tn = some f →
        ∃ u, (f, u) ∈ fu ∧ ∀ p ∈ fu, p.2.samples ≤ u.samples) ∧
      (∀ r ∈ wOk.records.head?,
        selectTopFeature (get_dt_info (wOracle wXtrain wXtest).1).features_used 10
          = some r.feature_removed) ∧
      List.Chain' (selChain 10) wOk.records ∧
      (∀ r ∈ wOk.records,
        isZeroCol wOk.xtrain r.feature_removed ∧ isZeroCol wOk.xtest r.feature_removed)) :=
  ⟨rfl, ablation_feature_choice wOracle [0, 1] 10 2 wXtrain wXtest wOk rfl⟩

end Trust

